import Mathlib

/-!
Verification development for the AI music genre tagger CLI.

The Python sources are shallowly embedded as Lean definitions:
* Python `dict` values become association lists in insertion order
  (Python 3.7+ dicts preserve insertion order), float weights become `ℚ`,
  and `sorted(..., key=value, reverse=True)` — a *stable* descending sort —
  becomes a stable insertion sort with a descending comparison (any two
  stable sorts with the same comparator agree on every input, so this is
  the semantics of CPython's `sorted`).
* Functions whose interesting part is pure are embedded directly; external
  effects (model inference, HTTP, file I/O) are cut at their boundary and
  the surrounding pure logic is embedded over their already-produced data.
-/

/-- Stable descending insertion of a pair into a list already sorted by
descending second component: the new element goes in front of the first
element whose weight is `≤` its own, so earlier elements win ties. -/
def insertWeightDesc {β : Type} {α : Type} [LinearOrder α] (p : β × α) :
    List (β × α) → List (β × α)
  | [] => [p]
  | q :: rest => if q.2 ≤ p.2 then p :: q :: rest else q :: insertWeightDesc p rest

/-- Python `sorted(items, key=lambda x: x[1], reverse=True)`: stable sort,
descending by the weight component. -/
def sortWeightDesc {β : Type} {α : Type} [LinearOrder α] (l : List (β × α)) :
    List (β × α) :=
  l.foldr insertWeightDesc []

/-- Lookup of a key in an association-list dictionary (first match). -/
def dictLookup {α : Type} : List (String × α) → String → Option α
  | [], _ => none
  | p :: rest, k => if p.1 = k then some p.2 else dictLookup rest k

/-- Python `k in d` on an association list. -/
def dictHasKey {α : Type} : List (String × α) → String → Bool
  | [], _ => false
  | p :: rest, k => p.1 = k || dictHasKey rest k

/-- Replace the value stored under an existing key, keeping its position. -/
def dictReplace {α : Type} : List (String × α) → String → α → List (String × α)
  | [], _, _ => []
  | p :: rest, k, v => (if p.1 = k then (k, v) else p) :: dictReplace rest k v

/-- Python dict update semantics on an association list: an existing key
keeps its position and gets the new value; a fresh key is appended. -/
def dictUpsert {α : Type} (d : List (String × α)) (k : String) (v : α) :
    List (String × α) :=
  if dictHasKey d k then dictReplace d k v else d ++ [(k, v)]

/-- Python `d.get(k, dflt)` on an association list. -/
def dictGetD {α : Type} (d : List (String × α)) (k : String) (dflt : α) : α :=
  (dictLookup d k).getD dflt

theorem dictLookup_dictReplace_self {α : Type} (d : List (String × α)) (k : String)
    (v : α) (h : dictHasKey d k = true) : dictLookup (dictReplace d k v) k = some v := by
  induction d with
  | nil => simp [dictHasKey] at h
  | cons p rest ih =>
    by_cases hp : p.1 = k
    · simp [dictReplace, dictLookup, hp]
    · have h' : dictHasKey rest k = true := by
        simpa [dictHasKey, hp] using h
      simp [dictReplace, dictLookup, hp, ih h']

theorem dictLookup_dictReplace_ne {α : Type} (d : List (String × α)) (k k' : String)
    (v : α) (h : k' ≠ k) : dictLookup (dictReplace d k v) k' = dictLookup d k' := by
  induction d with
  | nil => simp [dictReplace]
  | cons p rest ih =>
    by_cases hp : p.1 = k
    · have hne : ¬ k = k' := fun hkk => h hkk.symm
      simp [dictReplace, dictLookup, hp, hne, ih]
    · simp [dictReplace, dictLookup, hp, ih]

theorem dictLookup_append_single {α : Type} (d : List (String × α)) (k k' : String)
    (v : α) (h : k' ≠ k) : dictLookup (d ++ [(k, v)]) k' = dictLookup d k' := by
  induction d with
  | nil =>
    have hne : ¬ k = k' := fun hkk => h hkk.symm
    simp [dictLookup, hne]
  | cons p rest ih =>
    by_cases hp : p.1 = k'
    · simp [dictLookup, hp]
    · simp [dictLookup, hp, ih]

theorem dictLookup_append_self {α : Type} (d : List (String × α)) (k : String) (v : α)
    (h : dictHasKey d k = false) : dictLookup (d ++ [(k, v)]) k = some v := by
  induction d with
  | nil => simp [dictLookup]
  | cons p rest ih =>
    have hp : ¬ p.1 = k := by
      intro hpk
      simp [dictHasKey, hpk] at h
    have h' : dictHasKey rest k = false := by
      simpa [dictHasKey, hp] using h
    simp [dictLookup, hp, ih h']

theorem dictLookup_dictUpsert_self {α : Type} (d : List (String × α)) (k : String)
    (v : α) : dictLookup (dictUpsert d k v) k = some v := by
  by_cases h : dictHasKey d k = true
  · rw [dictUpsert, if_pos h]
    exact dictLookup_dictReplace_self d k v h
  · have hf : dictHasKey d k = false := by simpa using h
    rw [dictUpsert, if_neg (by simp [hf])]
    exact dictLookup_append_self d k v hf

theorem dictLookup_dictUpsert_ne {α : Type} (d : List (String × α)) (k k' : String)
    (v : α) (h : k' ≠ k) : dictLookup (dictUpsert d k v) k' = dictLookup d k' := by
  by_cases hk : dictHasKey d k = true
  · rw [dictUpsert, if_pos hk]
    exact dictLookup_dictReplace_ne d k k' v h
  · have hf : dictHasKey d k = false := by simpa using hk
    rw [dictUpsert, if_neg (by simp [hf])]
    exact dictLookup_append_single d k k' v h

theorem dictHasKey_append {α : Type} (d₁ d₂ : List (String × α)) (k : String) :
    dictHasKey (d₁ ++ d₂) k = (dictHasKey d₁ k || dictHasKey d₂ k) := by
  induction d₁ with
  | nil => simp [dictHasKey]
  | cons p rest ih => simp [dictHasKey, ih, Bool.or_assoc]

theorem dictHasKey_eq_false_iff {α : Type} (d : List (String × α)) (k : String) :
    dictHasKey d k = false ↔ ∀ p ∈ d, p.1 ≠ k := by
  induction d with
  | nil => simp [dictHasKey]
  | cons p rest ih => simp [dictHasKey, ih]

theorem insertWeightDesc_append {β α : Type} [LinearOrder α] (q : β × α)
    (l₁ l₂ : List (β × α)) (h₁ : ∀ b ∈ l₁, ¬ b.2 ≤ q.2) (h₂ : ∀ b ∈ l₂, b.2 ≤ q.2) :
    insertWeightDesc q (l₁ ++ l₂) = l₁ ++ q :: l₂ := by
  induction l₁ with
  | nil =>
    cases l₂ with
    | nil => rfl
    | cons b t =>
      simp only [List.nil_append, insertWeightDesc,
        if_pos (h₂ b (List.mem_cons_self _ _))]
  | cons b l₁ ih =>
    simp only [List.cons_append, insertWeightDesc,
      if_neg (h₁ b (List.mem_cons_self _ _))]
    exact congrArg (List.cons b) (ih (fun x hx => h₁ x (List.mem_cons_of_mem _ hx)))

/-- The stable insertion sort agrees with the standard library's stable
`mergeSort` under the same descending comparison: both compute the unique
stable descending ordering, the semantics of Python's
`sorted(..., key=value, reverse=True)`. -/
theorem sortWeightDesc_eq_mergeSort {β α : Type} [LinearOrder α]
    (l : List (β × α)) :
    sortWeightDesc l = l.mergeSort (fun a b => decide (b.2 ≤ a.2)) := by
  have htrans : ∀ a b c : β × α, decide (b.2 ≤ a.2) → decide (c.2 ≤ b.2) →
      decide (c.2 ≤ a.2) := by
    intro a b c hab hbc
    simp only [decide_eq_true_eq] at *
    exact le_trans hbc hab
  have htotal : ∀ a b : β × α,
      decide (b.2 ≤ a.2) || decide (a.2 ≤ b.2) := by
    intro a b
    rcases le_total b.2 a.2 with h | h <;> simp [h]
  induction l with
  | nil => rw [List.mergeSort_nil]; rfl
  | cons q rest ih =>
    obtain ⟨l₁, l₂, h1, h2, h3⟩ := List.mergeSort_cons htrans htotal q rest
    have hsorted := List.sorted_mergeSort htrans htotal (q :: rest)
    rw [h1] at hsorted
    have h₂ : ∀ b ∈ l₂, b.2 ≤ q.2 := by
      intro b hb
      have := (List.pairwise_append.mp hsorted).2.1
      have := (List.pairwise_cons.mp this).1 b hb
      simpa using this
    have h₁ : ∀ b ∈ l₁, ¬ b.2 ≤ q.2 := by
      intro b hb
      have := h3 b hb
      simpa using this
    calc sortWeightDesc (q :: rest)
        = insertWeightDesc q (sortWeightDesc rest) := rfl
      _ = insertWeightDesc q (l₁ ++ l₂) := by rw [ih, h2]
      _ = l₁ ++ q :: l₂ := insertWeightDesc_append q l₁ l₂ h₁ h₂
      _ = (q :: rest).mergeSort (fun a b => decide (b.2 ≤ a.2)) := h1.symm

namespace MusicnnTagger

/-- The emission loop of `get_top_n_genres` (musicnn_tagger/tagger.py):
walk the sorted pairs; if the value is at least `min_weight`, emit it unless
the remaining budget `n` is exhausted (then stop); on the first value below
`min_weight`, stop altogether. -/
def topNLoop (minWeight : ℚ) : List (String × ℚ) → Int → List (String × ℚ)
  | [], _ => []
  | (k, v) :: rest, n =>
    if minWeight ≤ v then
      if n ≤ 0 then [] else (k, v) :: topNLoop minWeight rest (n - 1)
    else []

/-- `get_top_n_genres` (musicnn_tagger/tagger.py, lines 71-88): sort by value
descending (stable) and keep the top `top_n` items whose value is at least
`min_weight`, stopping at the first below-threshold value. -/
def get_top_n_genres (data : List (String × ℚ)) (top_n : Int) (min_weight : ℚ) :
    List (String × ℚ) :=
  topNLoop min_weight (sortWeightDesc data) top_n

/-- One step of `combine_genre_dicts`: store
`max(combined.get(key, 0), value)` under `key`. -/
def combineStep (acc : List (String × ℚ)) (kv : String × ℚ) : List (String × ℚ) :=
  dictUpsert acc kv.1 (max (dictGetD acc kv.1 0) kv.2)

/-- `combine_genre_dicts` (musicnn_tagger/tagger.py, lines 91-103): fold all
input dictionaries into one, keeping `max(existing_or_zero, new)` per key. -/
def combine_genre_dicts (genre_dicts : List (List (String × ℚ))) : List (String × ℚ) :=
  genre_dicts.foldl (fun acc d => d.foldl combineStep acc) []

/-- Pure aggregation core of `get_musicnn_tags` (musicnn_tagger/tagger.py,
lines 117-150): the per-model result maps collected in `tags_list` are merged
with `combine_genre_dicts` and ranked with `get_top_n_genres`; no other
transformation is applied to the merged map. -/
def get_musicnn_tags_core (tags_list : List (List (String × ℚ)))
    (max_genres_return_count : Int) (min_weight : ℚ) : List (String × ℚ) :=
  get_top_n_genres (combine_genre_dicts tags_list) max_genres_return_count min_weight

/-- The values stored for key `k` across all input dictionaries, in input
order (flatten, then filter on the key). -/
def valsFor (genre_dicts : List (List (String × ℚ))) (k : String) : List ℚ :=
  ((genre_dicts.flatMap id).filter (fun p => decide (p.1 = k))).map Prod.snd

theorem insertWeightDesc_perm {β α : Type} [LinearOrder α] (p : β × α)
    (l : List (β × α)) : List.Perm (insertWeightDesc p l) (p :: l) := by
  induction l with
  | nil => simp [insertWeightDesc]
  | cons q rest ih =>
    by_cases h : q.2 ≤ p.2
    · simp [insertWeightDesc, h]
    · simp only [insertWeightDesc, if_neg h]
      exact (ih.cons q).trans (List.Perm.swap p q rest)

theorem sortWeightDesc_perm {β α : Type} [LinearOrder α] (l : List (β × α)) :
    List.Perm (sortWeightDesc l) l := by
  induction l with
  | nil => simp [sortWeightDesc]
  | cons q rest ih =>
    exact (insertWeightDesc_perm q (sortWeightDesc rest)).trans (ih.cons q)

theorem pairwise_insertWeightDesc {β α : Type} [LinearOrder α] (p : β × α)
    (l : List (β × α)) (h : l.Pairwise (fun x y => y.2 ≤ x.2)) :
    (insertWeightDesc p l).Pairwise (fun x y => y.2 ≤ x.2) := by
  induction l with
  | nil => simp [insertWeightDesc]
  | cons q rest ih =>
    rcases List.pairwise_cons.mp h with ⟨hq, hrest⟩
    by_cases hle : q.2 ≤ p.2
    · simp only [insertWeightDesc, if_pos hle]
      refine List.pairwise_cons.mpr ⟨?_, h⟩
      intro x hx
      rcases List.mem_cons.mp hx with rfl | hx
      · exact hle
      · exact le_trans (hq x hx) hle
    · simp only [insertWeightDesc, if_neg hle]
      refine List.pairwise_cons.mpr ⟨?_, ih hrest⟩
      intro x hx
      rcases List.mem_cons.mp ((insertWeightDesc_perm p rest).mem_iff.mp hx) with rfl | hx
      · exact le_of_lt (lt_of_not_le hle)
      · exact hq x hx

theorem sortWeightDesc_pairwise {β α : Type} [LinearOrder α] (l : List (β × α)) :
    (sortWeightDesc l).Pairwise (fun x y => y.2 ≤ x.2) := by
  induction l with
  | nil => simp [sortWeightDesc]
  | cons q rest ih => exact pairwise_insertWeightDesc q (sortWeightDesc rest) ih

theorem topNLoop_eq (mw : ℚ) (l : List (String × ℚ)) (n : Int) :
    topNLoop mw l n = (l.takeWhile (fun p => decide (mw ≤ p.2))).take n.toNat := by
  induction l generalizing n with
  | nil => simp [topNLoop]
  | cons p rest ih =>
    obtain ⟨k, v⟩ := p
    simp only [topNLoop]
    by_cases hv : mw ≤ v
    · rw [if_pos hv, List.takeWhile_cons_of_pos (by simpa using hv)]
      by_cases hn : n ≤ 0
      · have hn0 : n.toNat = 0 := by omega
        rw [if_pos hn, hn0, List.take_zero]
      · have h1 : n.toNat = (n - 1).toNat + 1 := by omega
        rw [if_neg hn, h1, List.take_succ_cons, ih]
    · rw [if_neg hv, List.takeWhile_cons_of_neg (by simpa using hv), List.take_nil]

theorem get_top_n_genres_eq (data : List (String × ℚ)) (top_n : Int) (mw : ℚ) :
    get_top_n_genres data top_n mw =
      ((sortWeightDesc data).takeWhile (fun p => decide (mw ≤ p.2))).take top_n.toNat :=
  topNLoop_eq mw (sortWeightDesc data) top_n

theorem dictLookup_combineStep_self (acc : List (String × ℚ)) (k : String) (v : ℚ) :
    dictLookup (combineStep acc (k, v)) k =
      some (max ((dictLookup acc k).getD 0) v) := by
  simp [combineStep, dictGetD, dictLookup_dictUpsert_self]

theorem dictLookup_combineStep_ne (acc : List (String × ℚ)) (k k' : String) (v : ℚ)
    (h : k' ≠ k) : dictLookup (combineStep acc (k, v)) k' = dictLookup acc k' := by
  simp [combineStep, dictLookup_dictUpsert_ne acc k k' _ h]

theorem dictLookup_foldl_combineStep (kvs : List (String × ℚ)) (k : String) :
    ∀ acc : List (String × ℚ),
      dictLookup (kvs.foldl combineStep acc) k =
        if (kvs.filter (fun p => decide (p.1 = k))).map Prod.snd = [] then
          dictLookup acc k
        else
          some (((kvs.filter (fun p => decide (p.1 = k))).map Prod.snd).foldl max
            ((dictLookup acc k).getD 0)) := by
  induction kvs with
  | nil => intro acc; simp
  | cons p rest ih =>
    intro acc
    obtain ⟨k₀, v₀⟩ := p
    by_cases hk : k₀ = k
    · subst hk
      have hacc := dictLookup_combineStep_self acc k₀ v₀
      rw [List.foldl_cons, ih (combineStep acc (k₀, v₀))]
      by_cases hrest : (rest.filter (fun p => decide (p.1 = k₀))).map Prod.snd = []
      · simp [hrest, hacc]
      · simp [hrest, hacc]
    · have hacc := dictLookup_combineStep_ne acc k₀ k v₀ (fun hkk => hk hkk.symm)
      rw [List.foldl_cons, ih (combineStep acc (k₀, v₀)), hacc,
        List.filter_cons_of_neg (by simp [hk])]

theorem combine_genre_dicts_eq_foldl (ds : List (List (String × ℚ))) :
    combine_genre_dicts ds = (ds.flatMap id).foldl combineStep [] := by
  suffices h : ∀ acc, ds.foldl (fun acc d => d.foldl combineStep acc) acc =
      (ds.flatMap id).foldl combineStep acc from h []
  induction ds with
  | nil => intro acc; simp
  | cons d rest ih =>
    intro acc
    simp [List.foldl_append, ih]

theorem dictLookup_combine_genre_dicts (ds : List (List (String × ℚ))) (k : String) :
    dictLookup (combine_genre_dicts ds) k =
      if valsFor ds k = [] then none else some ((valsFor ds k).foldl max 0) := by
  rw [combine_genre_dicts_eq_foldl]
  simpa [valsFor, dictLookup] using dictLookup_foldl_combineStep (ds.flatMap id) k []

theorem foldl_max_spec (l : List ℚ) : ∀ a : ℚ,
    a ≤ l.foldl max a ∧ (∀ v ∈ l, v ≤ l.foldl max a) ∧
      (l.foldl max a = a ∨ l.foldl max a ∈ l) := by
  induction l with
  | nil => intro a; simp
  | cons v rest ih =>
    intro a
    obtain ⟨h1, h2, h3⟩ := ih (max a v)
    refine ⟨le_trans (le_max_left a v) h1, ?_, ?_⟩
    · intro w hw
      rcases List.mem_cons.mp hw with rfl | hw
      · exact le_trans (le_max_right a w) h1
      · exact h2 w hw
    · rcases h3 with h3 | h3
      · rcases max_choice a v with hc | hc
        · left; rw [List.foldl_cons, h3, hc]
        · right
          exact List.mem_cons.mpr (Or.inl (by rw [List.foldl_cons, h3, hc]))
      · right; exact List.mem_cons.mpr (Or.inr h3)

theorem valsFor_nonneg (ds : List (List (String × ℚ))) (k : String)
    (h : ∀ d ∈ ds, ∀ p ∈ d, 0 ≤ p.2) : ∀ w ∈ valsFor ds k, 0 ≤ w := by
  intro w hw
  simp only [valsFor, List.mem_map, List.mem_filter, List.mem_flatMap, id] at hw
  obtain ⟨p, ⟨⟨d, hd, hp⟩, _⟩, rfl⟩ := hw
  exact h d hd p hp

/-- C3: `get_top_n_genres` walks the candidates in descending value order
(stable for ties) and stops as soon as `top_n` items are emitted or a value
falls below `min_weight`: the result is the `top_n`-prefix of the
below-threshold-free prefix of the descending sort, has at most `top_n`
entries, only entries with value at least `min_weight`, and is ordered by
descending value; on `{"jazz": 0.9, "blues": 0.9, "rock": 0.5}` with
`top_n=2, min_weight=0.6` it returns exactly
`{"jazz": 0.9, "blues": 0.9}`. -/
theorem get_top_n_genres_spec :
    (∀ (data : List (String × ℚ)) (top_n : Int) (mw : ℚ),
      get_top_n_genres data top_n mw =
        ((sortWeightDesc data).takeWhile (fun p => decide (mw ≤ p.2))).take top_n.toNat ∧
      (get_top_n_genres data top_n mw).length ≤ top_n.toNat ∧
      (∀ p ∈ get_top_n_genres data top_n mw, mw ≤ p.2) ∧
      (get_top_n_genres data top_n mw).Pairwise (fun x y => y.2 ≤ x.2)) ∧
    get_top_n_genres [("jazz", 0.9), ("blues", 0.9), ("rock", 0.5)] 2 0.6 =
      [("jazz", 0.9), ("blues", 0.9)] := by
  constructor
  · intro data top_n mw
    refine ⟨get_top_n_genres_eq data top_n mw, ?_, ?_, ?_⟩
    · rw [get_top_n_genres_eq]
      exact List.length_take_le _ _
    · intro p hp
      rw [get_top_n_genres_eq] at hp
      simpa using List.mem_takeWhile_imp (List.mem_of_mem_take hp)
    · rw [get_top_n_genres_eq]
      exact List.Pairwise.sublist
        ((List.take_sublist _ _).trans (List.takeWhile_sublist _))
        (sortWeightDesc_pairwise data)
  · with_unfolding_all decide

/-- Witness for C3: the general part applied to the concrete ranking input,
with the membership hypothesis discharged by evaluation. -/
theorem get_top_n_genres_spec_witness : (0.6 : ℚ) ≤ 0.9 :=
  (get_top_n_genres_spec.1 [("jazz", 0.9), ("blues", 0.9), ("rock", 0.5)] 2 0.6).2.2.1
    ("jazz", 0.9) (by with_unfolding_all decide)

/-- C4: `combine_genre_dicts` sends every key occurring in some input to the
maximum of the values stored for it (whenever all inputs are non-negative,
as likelihoods are), the quoted example merges by max, and the resulting
key-to-value mapping is invariant under permuting the input dictionaries. -/
theorem combine_genre_dicts_spec :
    combine_genre_dicts [[("rock", 0.4)], [("rock", 0.7), ("pop", 0.3)]] =
      [("rock", 0.7), ("pop", 0.3)] ∧
    (∀ (ds : List (List (String × ℚ))) (k : String),
      (∀ d ∈ ds, ∀ p ∈ d, 0 ≤ p.2) → valsFor ds k ≠ [] →
      ∃ v, dictLookup (combine_genre_dicts ds) k = some v ∧
        v ∈ valsFor ds k ∧ ∀ w ∈ valsFor ds k, w ≤ v) ∧
    (∀ ds₁ ds₂ : List (List (String × ℚ)), List.Perm ds₁ ds₂ → ∀ k : String,
      dictLookup (combine_genre_dicts ds₁) k = dictLookup (combine_genre_dicts ds₂) k) := by
  refine ⟨by with_unfolding_all decide, ?_, ?_⟩
  · intro ds k hpos hne
    have hchar := dictLookup_combine_genre_dicts ds k
    rw [if_neg hne] at hchar
    obtain ⟨h1, h2, h3⟩ := foldl_max_spec (valsFor ds k) 0
    refine ⟨(valsFor ds k).foldl max 0, hchar, ?_, h2⟩
    rcases h3 with h3 | h3
    · obtain ⟨w, hw⟩ := List.exists_mem_of_ne_nil _ hne
      have hw0 : w = 0 := le_antisymm (h3 ▸ h2 w hw) (valsFor_nonneg ds k hpos w hw)
      rw [h3, ← hw0]
      exact hw
    · exact h3
  · intro ds₁ ds₂ hperm k
    have hv : List.Perm (valsFor ds₁ k) (valsFor ds₂ k) :=
      ((hperm.flatMap_right id).filter _).map _
    rw [dictLookup_combine_genre_dicts, dictLookup_combine_genre_dicts]
    by_cases h1 : valsFor ds₁ k = []
    · have h2 : valsFor ds₂ k = [] := ((h1 ▸ hv).symm).eq_nil
      rw [if_pos h1, if_pos h2]
    · have h2 : valsFor ds₂ k ≠ [] := by
        intro h2
        exact h1 (h2 ▸ hv).eq_nil
      rw [if_neg h1, if_neg h2]
      congr 1
      exact hv.foldl_eq' (fun x _ y _ z => by rw [max_assoc, max_comm x y, ← max_assoc]) 0

/-- Witness for C4: the max-characterization applied to the quoted concrete
merge, hypotheses discharged by evaluation. -/
theorem combine_genre_dicts_spec_witness :
    ∃ v, dictLookup (combine_genre_dicts [[("rock", 0.4)], [("rock", 0.7), ("pop", 0.3)]])
        "rock" = some v ∧
      v ∈ valsFor [[("rock", 0.4)], [("rock", 0.7), ("pop", 0.3)]] "rock" ∧
      ∀ w ∈ valsFor [[("rock", 0.4)], [("rock", 0.7), ("pop", 0.3)]] "rock", w ≤ v :=
  combine_genre_dicts_spec.2.1 [[("rock", 0.4)], [("rock", 0.7), ("pop", 0.3)]] "rock"
    (by with_unfolding_all decide) (by with_unfolding_all decide)

/-- C10: every value `combine_genre_dicts` stores is the maximum of `0` and
all input values for that key (so all outputs are non-negative), and a
negative value occurring in a single input map is replaced by `0` rather
than preserved. -/
theorem combine_genre_dicts_clamps_at_zero :
    (∀ (ds : List (List (String × ℚ))) (k : String) (v : ℚ),
      dictLookup (combine_genre_dicts ds) k = some v →
      0 ≤ v ∧ (∀ w ∈ valsFor ds k, w ≤ v) ∧ (v = 0 ∨ v ∈ valsFor ds k)) ∧
    combine_genre_dicts [[("tag", -1)]] = [("tag", 0)] := by
  constructor
  · intro ds k v hv
    rw [dictLookup_combine_genre_dicts] at hv
    by_cases hne : valsFor ds k = []
    · rw [if_pos hne] at hv
      exact absurd hv (by simp)
    · rw [if_neg hne] at hv
      obtain ⟨h1, h2, h3⟩ := foldl_max_spec (valsFor ds k) 0
      have hv' : v = (valsFor ds k).foldl max 0 := by
        injection hv with h
        exact h.symm
      subst hv'
      exact ⟨h1, h2, h3⟩
  · with_unfolding_all decide

/-- Witness for C10: the clamping characterization applied to the
single-negative-entry input. -/
theorem combine_genre_dicts_clamps_at_zero_witness :
    0 ≤ (0 : ℚ) ∧ (∀ w ∈ valsFor [[("tag", -1)]] "tag", w ≤ (0 : ℚ)) ∧
      ((0 : ℚ) = 0 ∨ (0 : ℚ) ∈ valsFor [[("tag", -1)]] "tag") :=
  combine_genre_dicts_clamps_at_zero.1 [[("tag", -1)]] "tag" 0
    (by with_unfolding_all decide)

/-- C1 (counterexample): the aggregation core of `get_musicnn_tags` performs
no gender-keyword de-duplication: on the quoted input (with the default
`max_genres_return_count = 5` and `min_weight = 0.2`) all three keys
survive, so the result is not `{"female": 0.6}` alone. -/
theorem get_musicnn_tags_gender_dedup_cex :
    get_musicnn_tags_core [[("female vocalists", 0.8), ("female", 0.6), ("woman", 0.5)]]
      5 0.2 = [("female vocalists", 0.8), ("female", 0.6), ("woman", 0.5)] ∧
    ¬ get_musicnn_tags_core [[("female vocalists", 0.8), ("female", 0.6), ("woman", 0.5)]]
      5 0.2 = [("female", 0.6)] := by
  with_unfolding_all decide

/-- C1 (amended): `get_musicnn_tags` applies no gender-tag reduction to the
merged map: every entry of the aggregated result is an entry of the merged
map unchanged (whether or not its key matches a gender keyword), and on
input `{"female vocalists": 0.8, "female": 0.6, "woman": 0.5}` all three
keys are retained with their original weights. -/
theorem get_musicnn_tags_no_gender_dedup :
    (∀ (tags_list : List (List (String × ℚ))) (n : Int) (mw : ℚ),
      ∀ p ∈ get_musicnn_tags_core tags_list n mw, p ∈ combine_genre_dicts tags_list) ∧
    get_musicnn_tags_core [[("female vocalists", 0.8), ("female", 0.6), ("woman", 0.5)]]
      5 0.2 = [("female vocalists", 0.8), ("female", 0.6), ("woman", 0.5)] := by
  constructor
  · intro tags_list n mw p hp
    unfold get_musicnn_tags_core at hp
    rw [get_top_n_genres_eq] at hp
    have h1 := List.mem_of_mem_take hp
    have h2 := (List.takeWhile_sublist _).subset h1
    exact (sortWeightDesc_perm _).mem_iff.mp h2
  · with_unfolding_all decide

/-- Witness for C1 (amended): the pass-through property applied to the
quoted input. -/
theorem get_musicnn_tags_no_gender_dedup_witness :
    ("female", (0.6 : ℚ)) ∈ combine_genre_dicts
      [[("female vocalists", 0.8), ("female", 0.6), ("woman", 0.5)]] :=
  get_musicnn_tags_no_gender_dedup.1
    [[("female vocalists", 0.8), ("female", 0.6), ("woman", 0.5)]] 5 0.2
    ("female", 0.6) (by with_unfolding_all decide)

end MusicnnTagger

namespace LastfmApi

/-- UTF-8 encoding of one character, as byte values
(Python `str.encode('utf-8')`, applied by `urllib.parse.quote`). -/
def charUtf8 (c : Char) : List Nat :=
  let n := c.toNat
  if n < 0x80 then [n]
  else if n < 0x800 then [0xC0 + n / 0x40, 0x80 + n % 0x40]
  else if n < 0x10000 then
    [0xE0 + n / 0x1000, 0x80 + (n / 0x40) % 0x40, 0x80 + n % 0x40]
  else
    [0xF0 + n / 0x40000, 0x80 + (n / 0x1000) % 0x40, 0x80 + (n / 0x40) % 0x40,
      0x80 + n % 0x40]

/-- Bytes never quoted by `urllib.parse.quote`: ASCII letters, digits,
`_ . - ~`, plus the characters of the default `safe` parameter, `'/'`. -/
def quoteSafeByte (b : Nat) : Bool :=
  (0x41 ≤ b && b ≤ 0x5A) || (0x61 ≤ b && b ≤ 0x7A) || (0x30 ≤ b && b ≤ 0x39) ||
    b == 95 || b == 46 || b == 45 || b == 126 || b == 47

/-- Upper-case hexadecimal digit, as used by `urllib.parse.quote`. -/
def hexDigitChar (n : Nat) : Char :=
  if n < 10 then Char.ofNat (48 + n) else Char.ofNat (55 + n)

/-- Percent-encoding of one byte. -/
def quoteByte (b : Nat) : List Char :=
  if quoteSafeByte b then [Char.ofNat b]
  else ['%', hexDigitChar (b / 16), hexDigitChar (b % 16)]

/-- `urllib.parse.quote(s)` with its default `safe='/'`. -/
def pyQuote (s : String) : String :=
  String.mk ((s.data.flatMap charUtf8).flatMap quoteByte)

/-- A caller-supplied parameter value: the client passes strings
(artist/track names); a non-string value would be stringified without
encoding. -/
inductive ParamValue : Type
  | str : String → ParamValue
  | int : Int → ParamValue

/-- `urllib.parse.quote(v) if isinstance(v, str) else v`, rendered into the
query string by f-string formatting. -/
def renderParamValue : ParamValue → String
  | .str s => pyQuote s
  | .int n => toString n

/-- The `full_params` dict of `_build_api_url` (lastfm_tagger/api_client.py,
lines 25-46): the four fixed entries in order, then the caller-supplied
parameters merged in with Python dict semantics. -/
def buildFullParams (apiKey method : String) (params : List (String × ParamValue)) :
    List (String × String) :=
  params.foldl (fun acc kv => dictUpsert acc kv.1 (renderParamValue kv.2))
    [("method", method), ("api_key", apiKey), ("format", "json"), ("autocorrect", "1")]

/-- `LastFMClient._build_api_url`: `f"{base_url}?{param_string}"` where
`param_string` joins `key=value` pairs with `&`. -/
def build_api_url (base_url apiKey method : String)
    (params : List (String × ParamValue)) : String :=
  base_url ++ "?" ++
    String.intercalate "&" ((buildFullParams apiKey method params).map
      (fun kv => kv.1 ++ "=" ++ kv.2))

theorem foldl_dictUpsert_fresh {β : Type} (g : β → String) :
    ∀ (params : List (String × β)) (acc : List (String × String)),
      (∀ kv ∈ params, dictHasKey acc kv.1 = false) →
      (params.map Prod.fst).Nodup →
      params.foldl (fun acc kv => dictUpsert acc kv.1 (g kv.2)) acc =
        acc ++ params.map (fun kv => (kv.1, g kv.2)) := by
  intro params
  induction params with
  | nil => intro acc _ _; simp
  | cons kv rest ih =>
    intro acc hfresh hnodup
    obtain ⟨k, v⟩ := kv
    have hk : dictHasKey acc k = false := hfresh (k, v) (List.mem_cons_self _ _)
    have hstep : dictUpsert acc k (g v) = acc ++ [(k, g v)] := by
      rw [dictUpsert, if_neg (by simp [hk])]
    rw [List.foldl_cons, hstep, ih (acc ++ [(k, g v)]) ?fresh ?nodup]
    · simp
    case fresh =>
      intro kv' hkv'
      rw [dictHasKey_append, hfresh kv' (List.mem_cons_of_mem _ hkv'), Bool.false_or]
      have hne : k ≠ kv'.1 := by
        intro heq
        have : kv'.1 ∈ rest.map Prod.fst := List.mem_map_of_mem Prod.fst hkv'
        rw [List.map_cons] at hnodup
        exact (List.nodup_cons.mp hnodup).1 (heq ▸ this)
      simp [dictHasKey, hne]
    case nodup =>
      rw [List.map_cons] at hnodup
      exact (List.nodup_cons.mp hnodup).2

theorem buildFullParams_eq (apiKey method : String)
    (params : List (String × ParamValue))
    (hfresh : ∀ kv ∈ params,
      kv.1 ∉ (["method", "api_key", "format", "autocorrect"] : List String))
    (hnodup : (params.map Prod.fst).Nodup) :
    buildFullParams apiKey method params =
      [("method", method), ("api_key", apiKey), ("format", "json"),
        ("autocorrect", "1")] ++
        params.map (fun kv => (kv.1, renderParamValue kv.2)) := by
  refine foldl_dictUpsert_fresh renderParamValue params _ ?_ hnodup
  intro kv hkv
  rw [dictHasKey_eq_false_iff]
  intro p hp
  have hname := hfresh kv hkv
  simp only [List.mem_cons, List.not_mem_nil, or_false] at hp
  simp only [List.mem_cons, List.not_mem_nil, or_false, not_or] at hname
  rcases hp with rfl | rfl | rfl | rfl
  · exact fun h => hname.1 h.symm
  · exact fun h => hname.2.1 h.symm
  · exact fun h => hname.2.2.1 h.symm
  · exact fun h => hname.2.2.2 h.symm

/-- C2 (counterexample): `_build_api_url` does not percent-encode the slash
of `"AC/DC"`: `urllib.parse.quote` keeps `'/'` in its default `safe` set,
so the URL contains the literal `AC/DC` and no `%` escape at all. -/
theorem build_api_url_slash_cex :
    pyQuote "AC/DC" = "AC/DC" ∧
    build_api_url "http://ws.audioscrobbler.com/2.0" "KEY" "track.getTopTags"
      [("artist", .str "AC/DC"), ("track", .str "Thunderstruck")] =
      "http://ws.audioscrobbler.com/2.0?method=track.getTopTags&api_key=KEY&format=json&autocorrect=1&artist=AC/DC&track=Thunderstruck" ∧
    ¬ '%' ∈ (build_api_url "http://ws.audioscrobbler.com/2.0" "KEY" "track.getTopTags"
      [("artist", .str "AC/DC"), ("track", .str "Thunderstruck")]).data := by
  with_unfolding_all decide

/-- C2 (amended): for caller parameters whose keys are pairwise distinct and
distinct from the four fixed keys, `_build_api_url` deterministically
produces the base URL, `?`, and `&`-joined `key=value` pairs in exactly the
order `method, api_key, format=json, autocorrect=1`, then the caller
parameters, string values passed through `urllib.parse.quote` (which
percent-encodes e.g. the space as `%20` but leaves `'/'` unencoded, it
being in the default safe set) and non-string values stringified
unencoded. -/
theorem build_api_url_spec :
    (∀ (base_url apiKey method : String) (params : List (String × ParamValue)),
      (∀ kv ∈ params,
        kv.1 ∉ (["method", "api_key", "format", "autocorrect"] : List String)) →
      (params.map Prod.fst).Nodup →
      build_api_url base_url apiKey method params =
        base_url ++ "?" ++ String.intercalate "&"
          ((([("method", method), ("api_key", apiKey), ("format", "json"),
              ("autocorrect", "1")] : List (String × String)) ++
            params.map (fun kv => (kv.1, renderParamValue kv.2))).map
            (fun kv => kv.1 ++ "=" ++ kv.2))) ∧
    pyQuote "a b" = "a%20b" ∧ pyQuote "AC/DC" = "AC/DC" ∧
    renderParamValue (.int 7) = "7" := by
  refine ⟨?_, by with_unfolding_all decide, by with_unfolding_all decide,
    by with_unfolding_all decide⟩
  intro base_url apiKey method params hfresh hnodup
  rw [build_api_url, buildFullParams_eq apiKey method params hfresh hnodup]

/-- Witness for C2 (amended): the ordering characterization applied to the
concrete artist/track call. -/
theorem build_api_url_spec_witness :
    build_api_url "http://ws.audioscrobbler.com/2.0" "KEY" "track.getTopTags"
      [("artist", .str "a b"), ("track", .str "c")] =
      "http://ws.audioscrobbler.com/2.0" ++ "?" ++ String.intercalate "&"
        ((([("method", "track.getTopTags"), ("api_key", "KEY"), ("format", "json"),
            ("autocorrect", "1")] : List (String × String)) ++
          ([("artist", ParamValue.str "a b"), ("track", ParamValue.str "c")]).map
            (fun kv => (kv.1, renderParamValue kv.2))).map
          (fun kv => kv.1 ++ "=" ++ kv.2)) :=
  build_api_url_spec.1 "http://ws.audioscrobbler.com/2.0" "KEY" "track.getTopTags"
    [("artist", .str "a b"), ("track", .str "c")]
    (by with_unfolding_all decide) (by with_unfolding_all decide)

end LastfmApi

namespace LastfmTagger

/-- `TagModel` (lastfm_tagger/models.py): one parsed tag, whose `count`
may be absent. -/
structure TagModel : Type where
  name : String
  tagUrl : String
  count : Option Int
  deriving DecidableEq

/-- Python `l[:n]` slicing with an integer bound (negative bounds count
from the end). -/
def pySliceTo {γ : Type} (n : Int) (l : List γ) : List γ :=
  if 0 ≤ n then l.take n.toNat else l.take (l.length - (-n).toNat)

/-- `[(tag.name, tag.count) for tag in track_tags if tag.count is not None]`
(lastfm_tagger/lastfm_tagger.py, line 58). -/
def candidatePairs (tags : List TagModel) : List (String × Int) :=
  tags.filterMap (fun t => t.count.map (fun c => (t.name, c)))

/-- The shared filtering/sorting/truncation pipeline of `get_lastfm_tags`
(lastfm_tagger/lastfm_tagger.py, lines 57-66): keep pairs with a present
count, threshold-filter only when the weight sum is positive, sort by
weight descending (stable), truncate to `top_n`. -/
def processTags (tags : List TagModel) (top_n : Int) (min_weight : ℚ) :
    List (String × Int) :=
  let all := candidatePairs tags
  let total := (all.map Prod.snd).sum
  let filtered :=
    if 0 < total then all.filter (fun p => decide (min_weight ≤ (p.2 : ℚ))) else all
  pySliceTo top_n (sortWeightDesc filtered)

/-- The pure core of `get_lastfm_tags` (lastfm_tagger/lastfm_tagger.py,
lines 42-68), over the already-parsed track-level and artist-level tag
lists: a non-empty track list is processed; an empty track list falls back
to the artist list; if both are empty the result is the empty list. -/
def get_lastfm_tags_core (track_tags artist_tags : List TagModel) (top_n : Int)
    (min_weight : ℚ) : List (String × Int) :=
  if track_tags.isEmpty then
    if artist_tags.isEmpty then [] else processTags artist_tags top_n min_weight
  else processTags track_tags top_n min_weight

/-- C5: with no track-level tags but a non-empty artist-level list,
`get_lastfm_tags` returns the artist tags run through exactly the pipeline
track tags would get (so the result equals what the same list would produce
as track tags), and with both lists empty it returns the empty list. -/
theorem get_lastfm_tags_fallback :
    (∀ (artist_tags : List TagModel) (tn : Int) (mw : ℚ), artist_tags ≠ [] →
      get_lastfm_tags_core [] artist_tags tn mw =
        get_lastfm_tags_core artist_tags [] tn mw ∧
      get_lastfm_tags_core [] artist_tags tn mw = processTags artist_tags tn mw) ∧
    (∀ (tn : Int) (mw : ℚ), get_lastfm_tags_core [] [] tn mw = []) := by
  constructor
  · intro a_tags tn mw hne
    have hne' : a_tags.isEmpty = false := by
      simpa [List.isEmpty_iff] using hne
    constructor <;> simp [get_lastfm_tags_core, hne']
  · intro tn mw
    simp [get_lastfm_tags_core]

/-- Witness for C5: the fallback equations at a concrete artist-tag list. -/
theorem get_lastfm_tags_fallback_witness :
    get_lastfm_tags_core [] [⟨"synthwave", "u", some 90⟩] 5 60 =
      get_lastfm_tags_core [⟨"synthwave", "u", some 90⟩] [] 5 60 ∧
    get_lastfm_tags_core [] [⟨"synthwave", "u", some 90⟩] 5 60 =
      processTags [⟨"synthwave", "u", some 90⟩] 5 60 :=
  get_lastfm_tags_fallback.1 [⟨"synthwave", "u", some 90⟩] 5 60
    (by with_unfolding_all decide)

/-- C6: in `get_lastfm_tags`, a positive weight sum makes pairs below
`min_weight` be dropped before sorting and truncation; a zero weight sum
skips the threshold filter entirely, so the full candidate set is sorted
and truncated (not emptied), even though each weight is below a positive
`min_weight`. -/
theorem get_lastfm_tags_zero_sum :
    (∀ (tags : List TagModel) (tn : Int) (mw : ℚ),
      (0 < ((candidatePairs tags).map Prod.snd).sum →
        processTags tags tn mw =
          pySliceTo tn (sortWeightDesc
            ((candidatePairs tags).filter
              (fun p : String × Int => decide (mw ≤ (p.2 : ℚ)))))) ∧
      (((candidatePairs tags).map Prod.snd).sum = 0 →
        processTags tags tn mw = pySliceTo tn (sortWeightDesc (candidatePairs tags)))) ∧
    processTags [⟨"vaporwave", "u", some 0⟩, ⟨"chillwave", "u", some 0⟩] 5 60 =
      [("vaporwave", 0), ("chillwave", 0)] := by
  refine ⟨?_, by with_unfolding_all decide⟩
  intro tags tn mw
  constructor
  · intro hpos
    rw [processTags]
    simp only [if_pos hpos]
  · intro hzero
    rw [processTags]
    simp only [hzero, lt_irrefl, if_false]

/-- Witness for C6: the zero-sum branch at a concrete all-zero-weight
candidate list with a positive threshold. -/
theorem get_lastfm_tags_zero_sum_witness :
    processTags [⟨"vaporwave", "u", some 0⟩, ⟨"chillwave", "u", some 0⟩] 5 60 =
      pySliceTo 5 (sortWeightDesc
        (candidatePairs [⟨"vaporwave", "u", some 0⟩, ⟨"chillwave", "u", some 0⟩])) :=
  (get_lastfm_tags_zero_sum.1
    [⟨"vaporwave", "u", some 0⟩, ⟨"chillwave", "u", some 0⟩] 5 60).2
    (by with_unfolding_all decide)

end LastfmTagger

namespace MusicTagger

/-- Whitespace in the sense of Python `str.strip()` (ASCII fragment). -/
def isPySpace (c : Char) : Bool :=
  c == ' ' || c == '\t' || c == '\n' || c == '\r' || c == '\x0b' || c == '\x0c'

/-- Python `s.strip()`. -/
def pyStrip (s : String) : String :=
  ⟨((s.data.dropWhile isPySpace).reverse.dropWhile isPySpace).reverse⟩

/-- Split a character list at the first occurrence of `sep` (`none` when
`sep` does not occur): the semantics of Python `s.split(sep, 1)` combined
with the `sep in s` membership test, for a non-empty separator. -/
def splitFirst (sep : List Char) : List Char → Option (List Char × List Char)
  | [] => if sep.isPrefixOf ([] : List Char) then some ([], []) else none
  | c :: rest =>
    if sep.isPrefixOf (c :: rest) then some ([], (c :: rest).drop sep.length)
    else (splitFirst sep rest).map (fun pr => (c :: pr.1, pr.2))

/-- Python `sep in s` for a non-empty separator. -/
def containsSeq (sep l : List Char) : Bool :=
  (splitFirst sep l).isSome

/-- Index of the last character satisfying `pred`, if any. -/
def lastIndexWhere (pred : Char → Bool) (l : List Char) : Option Nat :=
  ((l.enum.filter (fun ic => pred ic.2)).map Prod.fst).max?

/-- `os.path.splitext` (generic over the Windows separators `\` and `/`;
identical to the POSIX variant on separator-free filenames): the extension
starts at the last dot of the basename, provided some earlier basename
character is not a dot; returns (root, extension). -/
def pySplitext (s : String) : String × String :=
  let chars := s.data
  let sepIdx : Int :=
    match lastIndexWhere (fun c => c == '/' || c == '\\') chars with
    | some i => (i : Int)
    | none => -1
  let dotIdx : Int :=
    match lastIndexWhere (fun c => c == '.') chars with
    | some i => (i : Int)
    | none => -1
  if sepIdx < dotIdx then
    if ((chars.drop (sepIdx + 1).toNat).take (dotIdx - sepIdx - 1).toNat).any
        (fun c => c != '.') then
      (⟨chars.take dotIdx.toNat⟩, ⟨chars.drop dotIdx.toNat⟩)
    else (s, "")
  else (s, "")

/-- The fixed separator priority list of
`_extract_artist_track_from_filename` (music_tagger.py, line 187). -/
def separators : List String := [" - ", "-", "—", "_"]

/-- The separator loop: try each separator in order; on the first one
contained in the filename, split once and stop. -/
def firstSepSplit : List String → String → Option (String × String)
  | [], _ => none
  | sep :: rest, s =>
    match splitFirst sep.data s.data with
    | some pr => some (⟨pr.1⟩, ⟨pr.2⟩)
    | none => firstSepSplit rest s

/-- `MusicTagger._extract_artist_track_from_filename` (music_tagger.py,
lines 175-197): split at the first separator (stripping both parts), else
keep the whole filename as the track with an empty artist; in both cases
strip the extension from the track portion. -/
def extract_artist_track_from_filename (filename : String) : String × String :=
  match firstSepSplit separators filename with
  | some (a, t) => (pyStrip a, (pySplitext (pyStrip t)).1)
  | none => ("", (pySplitext filename).1)

theorem firstSepSplit_eq_none (seps : List String) (s : String)
    (h : ∀ sep ∈ seps, containsSeq sep.data s.data = false) :
    firstSepSplit seps s = none := by
  induction seps with
  | nil => rfl
  | cons sep rest ih =>
    have hsep : splitFirst sep.data s.data = none := by
      have := h sep (List.mem_cons_self _ _)
      rw [containsSeq] at this
      exact Option.not_isSome_iff_eq_none.mp (by simp [this])
    rw [firstSepSplit, hsep]
    exact ih (fun q hq => h q (List.mem_cons_of_mem _ hq))

/-- C7: the filename-fallback parser tries `" - "`, `"-"`, `"—"`, `"_"` in
that order, splits once at the first separator present and strips the
extension from the track part; with no separator present the whole filename
minus extension becomes the track with an empty artist; and
`"Artist - Track Name.mp3"` gives `("Artist", "Track Name")` while
`"Artist_Track.flac"` gives `("Artist", "Track")`. -/
theorem extract_artist_track_spec :
    (∀ filename : String,
      (∀ sep ∈ separators, containsSeq sep.data filename.data = false) →
      extract_artist_track_from_filename filename =
        ("", (pySplitext filename).1)) ∧
    (∀ (filename : String) (a t : List Char),
      splitFirst (" - ").data filename.data = some (a, t) →
      extract_artist_track_from_filename filename =
        (pyStrip ⟨a⟩, (pySplitext (pyStrip ⟨t⟩)).1)) ∧
    extract_artist_track_from_filename "Artist - Track Name.mp3" =
      ("Artist", "Track Name") ∧
    extract_artist_track_from_filename "Artist_Track.flac" = ("Artist", "Track") := by
  refine ⟨?_, ?_, by with_unfolding_all decide, by with_unfolding_all decide⟩
  · intro filename h
    rw [extract_artist_track_from_filename, firstSepSplit_eq_none separators filename h]
  · intro filename a t h
    rw [extract_artist_track_from_filename]
    have : firstSepSplit separators filename = some (⟨a⟩, ⟨t⟩) := by
      rw [separators, firstSepSplit, h]
    rw [this]

/-- Witness for C7: the no-separator case at a concrete filename, and the
priority case at `"Artist - Track Name.mp3"`. -/
theorem extract_artist_track_spec_witness :
    extract_artist_track_from_filename "Song.mp3" =
      ("", (pySplitext "Song.mp3").1) :=
  extract_artist_track_spec.1 "Song.mp3" (by with_unfolding_all decide)

/-- The extensions of the `SUPPORTED_FORMATS` table (music_tagger.py,
lines 88-104). -/
def supportedExtensions : List String :=
  [".mp3", ".m4a", ".flac", ".ogg", ".opus", ".oga", ".spx", ".wav", ".aiff",
    ".aif", ".asf", ".wma", ".wmv", ".ape", ".wv"]

/-- The `genres` argument of `set_genre_tag`: a string, a list of strings,
or any other Python value. -/
inductive GenresArg : Type
  | str : String → GenresArg
  | list : List String → GenresArg
  | other : GenresArg

/-- Outcome of the container write performed through the external metadata
library (open + tag assignment + save): it either succeeds or raises. -/
inductive WriteOutcome : Type
  | ok : WriteOutcome
  | raises : WriteOutcome

/-- Result of `set_genre_tag`: the returned boolean, and whether a
container handler was invoked at all. -/
structure SetGenreResult : Type where
  success : Bool
  handlerInvoked : Bool
  deriving DecidableEq

/-- Control flow of `MusicTagger.set_genre_tag` (music_tagger.py, lines
110-174): a non-string, non-list `genres` is rejected; an extension outside
the format table is rejected before any handler runs; otherwise the
container write runs and any exception it raises is caught by the
surrounding `try`, yielding `False`. The external mutagen write itself is
abstracted as a `WriteOutcome` parameter. -/
def set_genre_tag (file_path : String) (genres : GenresArg)
    (write : WriteOutcome) : SetGenreResult :=
  match genres with
  | .other => ⟨false, false⟩
  | _ =>
    if (pySplitext file_path).2.toLower ∈ supportedExtensions then
      match write with
      | .ok => ⟨true, true⟩
      | .raises => ⟨false, true⟩
    else ⟨false, false⟩

/-- C8: `set_genre_tag` always returns a boolean (it never raises): a
`genres` value that is neither a string nor a list fails; an unsupported
extension (e.g. `.txt`) fails without invoking any container handler; and a
write that raises is caught and reported as failure. -/
theorem set_genre_tag_spec :
    (∀ (path : String) (w : WriteOutcome),
      set_genre_tag path .other w = ⟨false, false⟩) ∧
    (∀ (path : String) (g : GenresArg) (w : WriteOutcome),
      (pySplitext path).2.toLower ∉ supportedExtensions →
      set_genre_tag path g w = ⟨false, false⟩) ∧
    (∀ (path : String) (g : GenresArg),
      (set_genre_tag path g .raises).success = false) ∧
    set_genre_tag "song.txt" (.str "Rock") .ok = ⟨false, false⟩ := by
    refine ⟨?_, ?_, ?_, by with_unfolding_all decide⟩
    · intro path w
      rfl
    · intro path g w h
      cases g with
      | other => rfl
      | str s => simp [set_genre_tag, h]
      | list l => simp [set_genre_tag, h]
    · intro path g
      cases g with
      | other => rfl
      | str s =>
        by_cases h : (pySplitext path).2.toLower ∈ supportedExtensions <;>
          simp [set_genre_tag, h]
      | list l =>
        by_cases h : (pySplitext path).2.toLower ∈ supportedExtensions <;>
          simp [set_genre_tag, h]

/-- Witness for C8: the unsupported-extension rejection applied to a
concrete `.txt` path. -/
theorem set_genre_tag_spec_witness :
    set_genre_tag "notes.txt" (.list ["Rock", "Pop"]) .ok = ⟨false, false⟩ :=
  set_genre_tag_spec.2.1 "notes.txt" (.list ["Rock", "Pop"]) .ok
    (by with_unfolding_all decide)

end MusicTagger

namespace MusicnnConfig

/-- JSON values, as produced by Python `json.loads`. -/
inductive JVal : Type where
  | null : JVal
  | bool : Bool → JVal
  | num : Int → JVal
  | str : String → JVal
  | arr : List JVal → JVal
  | obj : List (String × JVal) → JVal

/-- JSON insignificant whitespace. -/
def isJsonWs (c : Char) : Bool :=
  c == ' ' || c == '\t' || c == '\n' || c == '\r'

/-- Skip insignificant whitespace. -/
def jSkipWs (l : List Char) : List Char :=
  l.dropWhile isJsonWs

/-- Value of one hexadecimal digit (both cases), if any. -/
def hexVal (c : Char) : Option Nat :=
  if '0' ≤ c ∧ c ≤ '9' then some (c.toNat - 48)
  else if 'a' ≤ c ∧ c ≤ 'f' then some (c.toNat - 87)
  else if 'A' ≤ c ∧ c ≤ 'F' then some (c.toNat - 55)
  else none

/-- The single-character JSON escapes. -/
def unescapeChar : Char → Option Char
  | '"' => some '"'
  | '\\' => some '\\'
  | '/' => some '/'
  | 'b' => some (Char.ofNat 8)
  | 'f' => some (Char.ofNat 12)
  | 'n' => some '\n'
  | 'r' => some '\r'
  | 't' => some '\t'
  | _ => none

/-- Parse the body of a JSON string after the opening quote, returning the
decoded characters and the input after the closing quote. (BMP `\u`
escapes are decoded directly; surrogate-pair recombination for astral
characters is not modelled — no input used in this development contains
them.) -/
def parseJStringAux : List Char → Option (List Char × List Char)
  | [] => none
  | c :: rest =>
    if c = '"' then some ([], rest)
    else if c = '\\' then
      match rest with
      | 'u' :: h1 :: h2 :: h3 :: h4 :: rest2 =>
        match hexVal h1, hexVal h2, hexVal h3, hexVal h4 with
        | some a, some b, some c2, some d =>
          (parseJStringAux rest2).map
            (fun pr => (Char.ofNat (((a * 16 + b) * 16 + c2) * 16 + d) :: pr.1, pr.2))
        | _, _, _, _ => none
      | e :: rest2 =>
        match unescapeChar e with
        | some ec => (parseJStringAux rest2).map (fun pr => (ec :: pr.1, pr.2))
        | none => none
      | [] => none
    else (parseJStringAux rest).map (fun pr => (c :: pr.1, pr.2))

/-- Parse a non-empty run of decimal digits. -/
def parseNatDigits (l : List Char) : Option (Nat × List Char) :=
  let ds := l.takeWhile Char.isDigit
  if ds.isEmpty then none
  else some (ds.foldl (fun acc c => acc * 10 + (c.toNat - 48)) 0, l.drop ds.length)

/-- Parse the members of a JSON object after the opening brace (non-empty
object), with `pv` parsing each value; fueled by the member count. -/
def parseObjTailF (pv : List Char → Option (JVal × List Char)) :
    Nat → List Char → List (String × JVal) → Option (JVal × List Char)
  | 0, _, _ => none
  | Nat.succ fuel, l, acc =>
    match l with
    | '"' :: rest =>
      match parseJStringAux rest with
      | some (key, rest2) =>
        match jSkipWs rest2 with
        | ':' :: rest3 =>
          match pv rest3 with
          | some (v, rest4) =>
            match jSkipWs rest4 with
            | ',' :: rest5 => parseObjTailF pv fuel (jSkipWs rest5) (acc ++ [(⟨key⟩, v)])
            | '}' :: rest5 => some (.obj (acc ++ [(⟨key⟩, v)]), rest5)
            | _ => none
          | none => none
        | _ => none
      | none => none
    | _ => none

/-- Parse the items of a JSON array after the opening bracket (non-empty
array), with `pv` parsing each item; fueled by the item count. -/
def parseArrTailF (pv : List Char → Option (JVal × List Char)) :
    Nat → List Char → List JVal → Option (JVal × List Char)
  | 0, _, _ => none
  | Nat.succ fuel, l, acc =>
    match pv l with
    | some (v, rest) =>
      match jSkipWs rest with
      | ',' :: rest2 => parseArrTailF pv fuel rest2 (acc ++ [v])
      | ']' :: rest2 => some (.arr (acc ++ [v]), rest2)
      | _ => none
    | none => none

/-- Fueled recursive-descent parser for one JSON value (the fragment
`json.loads` accepts, without float/exponent literals — no input used in
this development contains them), returning the value and the
remaining input. -/
def parseJVal : Nat → List Char → Option (JVal × List Char)
  | 0, _ => none
  | Nat.succ fuel, l =>
    match jSkipWs l with
    | '{' :: rest =>
      match jSkipWs rest with
      | '}' :: rest2 => some (.obj [], rest2)
      | rest2 => parseObjTailF (parseJVal fuel) fuel rest2 []
    | '[' :: rest =>
      match jSkipWs rest with
      | ']' :: rest2 => some (.arr [], rest2)
      | rest2 => parseArrTailF (parseJVal fuel) fuel rest2 []
    | '"' :: rest => (parseJStringAux rest).map (fun pr => (.str ⟨pr.1⟩, pr.2))
    | 't' :: 'r' :: 'u' :: 'e' :: rest => some (.bool true, rest)
    | 'f' :: 'a' :: 'l' :: 's' :: 'e' :: rest => some (.bool false, rest)
    | 'n' :: 'u' :: 'l' :: 'l' :: rest => some (.null, rest)
    | '-' :: rest => (parseNatDigits rest).map (fun pr => (.num (-(pr.1 : Int)), pr.2))
    | l2 => (parseNatDigits l2).map (fun pr => (.num (pr.1 : Int), pr.2))

/-- Python `json.loads`: parse one value and require only whitespace to
remain. -/
def jsonParse (s : String) : Option JVal :=
  match parseJVal (s.data.length + 1) s.data with
  | some (v, rest) => if jSkipWs rest = [] then some v else none
  | none => none

/-- Lower-case hexadecimal digit, as used by `json.dumps` `\uXXXX`
escapes. -/
def hexDigitLowerChar (n : Nat) : Char :=
  if n < 10 then Char.ofNat (48 + n) else Char.ofNat (87 + n)

/-- A `\uXXXX` escape. -/
def u4Escape (n : Nat) : List Char :=
  ['\\', 'u', hexDigitLowerChar (n / 4096 % 16), hexDigitLowerChar (n / 256 % 16),
    hexDigitLowerChar (n / 16 % 16), hexDigitLowerChar (n % 16)]

/-- `json.dumps` encoding of one string character (default
`ensure_ascii=True`): shorthand escapes for the common controls, `\uXXXX`
(surrogate pairs beyond the BMP) for other controls and all non-ASCII
characters, the character itself otherwise. -/
def escChar (c : Char) : List Char :=
  if c = '"' then ['\\', '"']
  else if c = '\\' then ['\\', '\\']
  else if c = '\n' then ['\\', 'n']
  else if c = '\t' then ['\\', 't']
  else if c = '\r' then ['\\', 'r']
  else if c.toNat = 8 then ['\\', 'b']
  else if c.toNat = 12 then ['\\', 'f']
  else if c.toNat < 0x20 ∨ 0x7e < c.toNat then
    if c.toNat ≤ 0xFFFF then u4Escape c.toNat
    else u4Escape (0xD800 + (c.toNat - 0x10000) / 0x400) ++
      u4Escape (0xDC00 + (c.toNat - 0x10000) % 0x400)
  else [c]

/-- `json.dumps` rendering of a string. -/
def printJString (s : String) : List Char :=
  '"' :: (s.data.flatMap escChar ++ ['"'])

/-- The JSON spellings of the Python booleans. -/
def boolChars (b : Bool) : List Char :=
  if b then ['t', 'r', 'u', 'e'] else ['f', 'a', 'l', 's', 'e']

/-- One `"key": value` member, with the default `': '` key separator. -/
def printMember (kv : String × Bool) : List Char :=
  printJString kv.1 ++ ':' :: ' ' :: boolChars kv.2

/-- Join with the default `', '` item separator. -/
def joinComma : List (List Char) → List Char
  | [] => []
  | [x] => x
  | x :: y :: xs => x ++ ',' :: ' ' :: joinComma (y :: xs)

/-- `json.dumps(enabled_models)` as serialized by
`MusicnnSettings.save_settings` (musicnn_tagger/config.py, line 65). -/
def dumpsEnabledModels (m : List (String × Bool)) : String :=
  ⟨'{' :: (joinComma (m.map printMember) ++ ['}'])⟩

/-- The default five-model map (musicnn_tagger/config.py,
`default_enabled_models`), as the JSON values a load would produce. -/
def defaultEnabledModels : List (String × JVal) :=
  [("MSD_musicnn_big", .bool true), ("MTT_musicnn", .bool true),
    ("MTT_vgg", .bool true), ("MSD_musicnn", .bool true), ("MSD_vgg", .bool true)]

/-- The enabled-models loading logic of `MusicnnSettings.__post_init__`
(musicnn_tagger/config.py, lines 41-53): an absent or empty stored value,
a JSON decode error, or a decoded value that is not a dict all fall back to
the default five-model map; a decoded dict is used as is. -/
def loadEnabledModels (stored : Option String) : List (String × JVal) :=
  match stored with
  | none => defaultEnabledModels
  | some s =>
    if s.data.isEmpty then defaultEnabledModels
    else
      match jsonParse s with
      | some (JVal.obj members) => members
      | some _ => defaultEnabledModels
      | none => defaultEnabledModels

/-- A saved boolean map, as the JSON values a reload produces. -/
def toJPair (kv : String × Bool) : String × JVal :=
  (kv.1, JVal.bool kv.2)

/-- Characters serialized verbatim inside a JSON string: printable ASCII
other than the quote and the backslash. -/
def jsonPlainChar (c : Char) : Bool :=
  decide (0x20 ≤ c.toNat) && decide (c.toNat ≤ 0x7e) && c != '"' && c != '\\'

/-- Keys consisting of plain characters (all five model names qualify). -/
def plainKey (k : String) : Bool :=
  k.data.all jsonPlainChar

theorem stringMk_data (s : String) : (⟨s.data⟩ : String) = s := rfl

theorem escChar_plain (c : Char) (h : jsonPlainChar c = true) : escChar c = [c] := by
  simp only [jsonPlainChar, Bool.and_eq_true, bne_iff_ne, ne_eq,
    decide_eq_true_eq] at h
  obtain ⟨⟨⟨h1, h2⟩, h3⟩, h4⟩ := h
  rw [escChar, if_neg h3, if_neg h4,
    if_neg (fun hc => absurd h1 (by subst hc; decide)),
    if_neg (fun hc => absurd h1 (by subst hc; decide)),
    if_neg (fun hc => absurd h1 (by subst hc; decide)),
    if_neg (by omega), if_neg (by omega), if_neg (by push_neg; omega)]

theorem flatMap_escChar_plain (cs : List Char)
    (h : ∀ c ∈ cs, jsonPlainChar c = true) : cs.flatMap escChar = cs := by
  induction cs with
  | nil => rfl
  | cons c rest ih =>
    rw [List.flatMap_cons, escChar_plain c (h c (List.mem_cons_self _ _)),
      ih (fun x hx => h x (List.mem_cons_of_mem _ hx))]
    rfl

theorem parseJStringAux_plain (cs : List Char)
    (h : ∀ c ∈ cs, jsonPlainChar c = true) (rest : List Char) :
    parseJStringAux (cs ++ '"' :: rest) = some (cs, rest) := by
  induction cs with
  | nil =>
    rw [List.nil_append, parseJStringAux.eq_def]
    simp
  | cons c cs ih =>
    have hc := h c (List.mem_cons_self _ _)
    simp only [jsonPlainChar, Bool.and_eq_true, bne_iff_ne, ne_eq,
      decide_eq_true_eq] at hc
    obtain ⟨⟨⟨_, _⟩, h3⟩, h4⟩ := hc
    rw [List.cons_append, parseJStringAux.eq_def]
    simp [h3, h4, ih (fun x hx => h x (List.mem_cons_of_mem _ hx))]

theorem parseJVal_bool (f : Nat) (b : Bool) (rest : List Char) :
    parseJVal (f + 1) (' ' :: (boolChars b ++ rest)) = some (.bool b, rest) := by
  cases b <;> rfl

theorem jSkipWs_quote (X : List Char) : jSkipWs ('"' :: X) = '"' :: X := rfl

theorem jSkipWs_colon (X : List Char) : jSkipWs (':' :: X) = ':' :: X := rfl

theorem jSkipWs_rbrace (X : List Char) : jSkipWs ('}' :: X) = '}' :: X := rfl

theorem jSkipWs_comma (X : List Char) : jSkipWs (',' :: X) = ',' :: X := rfl

theorem jSkipWs_space (X : List Char) : jSkipWs (' ' :: X) = jSkipWs X := rfl

theorem joinComma_printMember_shape (ms : List (String × Bool)) (hms : ms ≠ [])
    (X : List Char) :
    ∃ Y, joinComma (ms.map printMember) ++ X = '"' :: Y := by
  cases ms with
  | nil => exact absurd rfl hms
  | cons kv t =>
    cases t with
    | nil =>
      refine ⟨kv.1.data.flatMap escChar ++ '"' :: ':' :: ' ' :: (boolChars kv.2 ++ X), ?_⟩
      simp [joinComma, printMember, printJString]
    | cons kv2 t2 =>
      refine ⟨kv.1.data.flatMap escChar ++ '"' :: ':' :: ' ' ::
        (boolChars kv.2 ++ ',' :: ' ' ::
          (joinComma ((kv2 :: t2).map printMember) ++ X)), ?_⟩
      simp [joinComma, printMember, printJString]

theorem parseObjTailF_print
    (pv : List Char → Option (JVal × List Char))
    (hpv : ∀ (b : Bool) (r : List Char),
      pv (' ' :: (boolChars b ++ r)) = some (.bool b, r)) :
    ∀ (m : List (String × Bool)), m ≠ [] →
      (∀ kv ∈ m, plainKey kv.1 = true) →
      ∀ (fuel : Nat) (acc : List (String × JVal)) (rest : List Char),
        m.length ≤ fuel →
        parseObjTailF pv fuel (joinComma (m.map printMember) ++ '}' :: rest) acc =
          some (.obj (acc ++ m.map toJPair), rest) := by
  intro m
  induction m with
  | nil => intro h; exact absurd rfl h
  | cons kv tail ih =>
    intro _ hplain fuel acc rest hfuel
    obtain ⟨k, b⟩ := kv
    have hpos : 0 < fuel :=
      lt_of_lt_of_le (List.length_pos.mpr (List.cons_ne_nil _ _)) hfuel
    obtain ⟨f, rfl⟩ : ∃ f, fuel = f + 1 := ⟨fuel - 1, by omega⟩
    have hkey : ∀ c ∈ k.data, jsonPlainChar c = true := by
      have := hplain (k, b) (List.mem_cons_self _ _)
      simpa [plainKey, List.all_eq_true] using this
    cases tail with
    | nil =>
      have hshape : joinComma ([((k : String), b)].map printMember) ++ '}' :: rest =
          '"' :: (k.data ++ '"' :: ':' :: ' ' :: (boolChars b ++ '}' :: rest)) := by
        simp [joinComma, printMember, printJString, flatMap_escChar_plain k.data hkey]
      rw [hshape]
      simp only [parseObjTailF, parseJStringAux_plain k.data hkey, jSkipWs_colon,
        hpv, jSkipWs_rbrace]
      simp [toJPair]
    | cons kv2 tail2 =>
      have hshape :
          joinComma (((k, b) :: kv2 :: tail2).map printMember) ++ '}' :: rest =
          '"' :: (k.data ++ '"' :: ':' :: ' ' :: (boolChars b ++ ',' :: ' ' ::
            (joinComma ((kv2 :: tail2).map printMember) ++ '}' :: rest))) := by
        simp [joinComma, printMember, printJString, flatMap_escChar_plain k.data hkey]
      rw [hshape]
      simp only [parseObjTailF, parseJStringAux_plain k.data hkey, jSkipWs_colon,
        hpv, jSkipWs_comma, jSkipWs_space]
      obtain ⟨Y, hY⟩ :=
        joinComma_printMember_shape (kv2 :: tail2) (by simp) ('}' :: rest)
      rw [hY, jSkipWs_quote, ← hY,
        ih (by simp) (fun q hq => hplain q (List.mem_cons_of_mem _ hq)) f
          (acc ++ [((k : String), JVal.bool b)]) rest
          (by simp only [List.length_cons] at hfuel ⊢; omega)]
      simp [toJPair]

theorem jSkipWs_lbrace (X : List Char) : jSkipWs ('{' :: X) = '{' :: X := rfl

theorem length_le_joinComma (ms : List (String × Bool)) :
    ms.length ≤ (joinComma (ms.map printMember)).length := by
  induction ms with
  | nil => simp [joinComma]
  | cons kv t ih =>
    cases t with
    | nil =>
      simp [joinComma, printMember, printJString]
    | cons kv2 t2 =>
      simp only [List.map_cons, joinComma, List.length_append, List.length_cons] at *
      omega

theorem parseJVal_obj_print (m : List (String × Bool)) (hm : m ≠ [])
    (hplain : ∀ kv ∈ m, plainKey kv.1 = true) (f : Nat) (hf1 : m.length ≤ f)
    (hf2 : 1 ≤ f) (rest : List Char) :
    parseJVal (f + 1) ('{' :: (joinComma (m.map printMember) ++ '}' :: rest)) =
      some (.obj (m.map toJPair), rest) := by
  obtain ⟨g, rfl⟩ : ∃ g, f = g + 1 := ⟨f - 1, by omega⟩
  obtain ⟨Y, hY⟩ := joinComma_printMember_shape m hm ('}' :: rest)
  have hstep : parseJVal (g + 1 + 1) ('{' :: '"' :: Y) =
      parseObjTailF (parseJVal (g + 1)) (g + 1) ('"' :: Y) [] := rfl
  rw [hY, hstep, ← hY,
    parseObjTailF_print (parseJVal (g + 1)) (parseJVal_bool g) m hm hplain (g + 1) []
      rest hf1]
  simp

theorem jsonParse_dumps (m : List (String × Bool))
    (hplain : ∀ kv ∈ m, plainKey kv.1 = true) :
    jsonParse (dumpsEnabledModels m) = some (.obj (m.map toJPair)) := by
  cases m with
  | nil => with_unfolding_all rfl
  | cons kv tail =>
    have hdata : (dumpsEnabledModels (kv :: tail)).data =
        '{' :: (joinComma ((kv :: tail).map printMember) ++ '}' :: []) := rfl
    have hlen : (kv :: tail).length ≤
        (dumpsEnabledModels (kv :: tail)).data.length := by
      rw [hdata]
      have h1 := length_le_joinComma (kv :: tail)
      simp only [List.length_cons] at h1
      simp only [List.length_cons, List.length_append, List.length_nil]
      omega
    have hone : 1 ≤ (dumpsEnabledModels (kv :: tail)).data.length := by
      rw [hdata]
      simp
    rw [jsonParse, hdata]
    rw [show (dumpsEnabledModels (kv :: tail)).data.length =
        ('{' :: (joinComma ((kv :: tail).map printMember) ++ '}' :: [])).length from
        rfl] at hlen hone
    rw [parseJVal_obj_print (kv :: tail) (List.cons_ne_nil _ _) hplain _ hlen hone []]
    rfl

example : jsonParse "\x7b\x22MTT_vgg\x22: true\x7d" =
    some (.obj [("MTT_vgg", .bool true)]) := by with_unfolding_all rfl

example : jsonParse (dumpsEnabledModels [("MTT_vgg", true)]) =
    some (.obj [("MTT_vgg", .bool true)]) := by with_unfolding_all rfl

example : jsonParse "not json" = none := by with_unfolding_all rfl

example : jsonParse "[1, 2]" = some (.arr [.num 1, .num 2]) := by
  with_unfolding_all rfl

example : jsonParse "42" = some (.num 42) := by with_unfolding_all rfl

/-- C9: the enabled-models map survives a save-then-load round trip through
the serialized embedded text (for distinct keys of printable ASCII without
quote or backslash — all model names qualify); and a
stored value that is absent, empty, unparseable, or parseable but not a
map reloads as the full default five-model map, without raising. -/
theorem musicnn_settings_roundtrip :
    (∀ m : List (String × Bool), (m.map Prod.fst).Nodup →
      (∀ kv ∈ m, plainKey kv.1 = true) →
      loadEnabledModels (some (dumpsEnabledModels m)) = m.map toJPair) ∧
    loadEnabledModels (some (dumpsEnabledModels [("MTT_vgg", true)])) =
      [("MTT_vgg", JVal.bool true)] ∧
    loadEnabledModels none = defaultEnabledModels ∧
    loadEnabledModels (some "") = defaultEnabledModels ∧
    (∀ s : String, jsonParse s = none →
      loadEnabledModels (some s) = defaultEnabledModels) ∧
    (∀ s : String, (∀ members, jsonParse s ≠ some (JVal.obj members)) →
      loadEnabledModels (some s) = defaultEnabledModels) ∧
    loadEnabledModels (some "not json") = defaultEnabledModels ∧
    loadEnabledModels (some "[1, 2]") = defaultEnabledModels := by
  refine ⟨?_, by with_unfolding_all rfl, rfl, by with_unfolding_all rfl, ?_, ?_,
    by with_unfolding_all rfl, by with_unfolding_all rfl⟩
  · intro m _ hplain
    have hne : (dumpsEnabledModels m).data.isEmpty = false := rfl
    simp only [loadEnabledModels, hne, jsonParse_dumps m hplain]
    rfl
  · intro s hnone
    simp only [loadEnabledModels]
    by_cases he : s.data.isEmpty
    · simp [he]
    · simp [he, hnone]
  · intro s hobj
    simp only [loadEnabledModels]
    by_cases he : s.data.isEmpty
    · simp [he]
    · cases hj : jsonParse s with
      | none => simp [he, hj]
      | some v =>
        cases v with
        | null => simp [he, hj]
        | bool b => simp [he, hj]
        | num n => simp [he, hj]
        | str s2 => simp [he, hj]
        | arr l => simp [he, hj]
        | obj members => exact absurd hj (hobj members)

/-- Witness for C9: the round trip applied to the quoted single-model map,
the plain-key hypothesis discharged by evaluation. -/
theorem musicnn_settings_roundtrip_witness :
    loadEnabledModels (some (dumpsEnabledModels [("MTT_vgg", true)])) =
      ([("MTT_vgg", true)] : List (String × Bool)).map toJPair :=
  musicnn_settings_roundtrip.1 [("MTT_vgg", true)] (by with_unfolding_all decide)
    (by with_unfolding_all decide)

end MusicnnConfig
